import Mathlib

/-!
Verification of the directory_audit repository (directory_audit.py and
directory_audit_Step2.py) against its natural-language specification.

Filesystem paths are modelled as lists of path components (`Parts`), and a
filesystem as finite lists of file paths and directory paths together with a
current working directory (Python resolves relative paths against the CWD).
Pure string manipulation (pathlib suffix logic, the HYPERLINK-formula regex,
os.path.commonpath) is translated at the character/component level.
-/

namespace DirectoryAudit

/-! ### Python string primitives, at the character level
Python's `str` methods used by the source (`startswith`, `endswith`,
`split(sep)` with a one-character separator, `strip`, `lower`, substring
containment, `<`) are modelled over `List Char` so that every definition
evaluates by kernel reduction. -/
/-- Python `s.startswith(pre)`. -/
def strStartsWith (s pre : String) : Bool := pre.toList.isPrefixOf s.toList

/-- Python `s.endswith(suf)`. -/
def strEndsWith (s suf : String) : Bool := suf.toList.isSuffixOf s.toList

/-- Split a character list at every occurrence of `c` (Python `split(c)`:
the empty string yields `[""]`, adjacent separators yield empty fields). -/
def splitCharList (c : Char) : List Char → List (List Char)
  | [] => [[]]
  | x :: t =>
    let r := splitCharList c t
    if x = c then [] :: r
    else
      match r with
      | [] => [[x]]
      | h :: t' => (x :: h) :: t'

/-- Python `s.split(c)` for a one-character separator `c`. -/
def strSplitChar (c : Char) (s : String) : List String :=
  (splitCharList c s.toList).map String.mk

/-- Python `s.lower()` (ASCII range, which covers every token the source
compares). -/
def strToLower (s : String) : String := String.mk (s.toList.map Char.toLower)

/-- Python `s.strip()`: remove leading and trailing whitespace. -/
def strTrim (s : String) : String :=
  String.mk (((s.toList.dropWhile Char.isWhitespace).reverse.dropWhile
    Char.isWhitespace).reverse)

/-- Does `pat` occur as a contiguous substring of `s` (Python `pat in s`)? -/
def containsChars (pat : List Char) : List Char → Bool
  | [] => pat.isPrefixOf []
  | c :: t => pat.isPrefixOf (c :: t) || containsChars pat t

/-- Python `pat in s`. -/
def strContainsStr (pat s : String) : Bool := containsChars pat.toList s.toList

/-- Code-point lexicographic `<` on character lists (Python string `<`). -/
def charListLt : List Char → List Char → Bool
  | [], [] => false
  | [], _ :: _ => true
  | _ :: _, [] => false
  | a :: as, b :: bs => if a = b then charListLt as bs else decide (a < b)

/-- Python string `<`. -/
def strLt (a b : String) : Bool := charListLt a.toList b.toList

/-- A filesystem path, as its list of components (`/a/b/c` is `["a","b","c"]`). -/
abbrev Parts := List String

/-- Python tuple comparison `a <= b` on component tuples, as used by
`sorted(..., key=lambda x: Path(x).parts)`. -/
def lexLe : Parts → Parts → Bool
  | [], _ => true
  | _ :: _, [] => false
  | a :: as, b :: bs => if a = b then lexLe as bs else strLt a b

/-- Render an absolute component list as a POSIX path string. -/
def partsToString (p : Parts) : String := "/" ++ String.intercalate "/" p

/-- Model of a `pathlib.Path` value: an absolute or relative component list. -/
structure PyPath where
  isAbs : Bool
  parts : Parts
deriving DecidableEq, Repr

/-- Model of `pathlib.Path(s)`: a leading slash makes the path absolute; the
components are the nonempty slash-separated segments. -/
def pathFromString (s : String) : PyPath :=
  ⟨strStartsWith s "/", (strSplitChar '/' s).filter (fun c => c ≠ "")⟩

/-- Render a `PyPath` as Python's `str(path)` (modulo `.` for the empty
relative path, which does not arise in the claims). -/
def pyPathToString (p : PyPath) : String :=
  if p.isAbs then partsToString p.parts else String.intercalate "/" p.parts

/-- `pathlib` parent: drop the final component. -/
def pyParent (p : PyPath) : PyPath := ⟨p.isAbs, p.parts.dropLast⟩

/-- `path / name` for a single-component name. -/
def pyJoin (p : PyPath) (name : String) : PyPath := ⟨p.isAbs, p.parts ++ [name]⟩

/-- `pathlib` suffix of one file name: the final `.`-separated segment with the
dot, empty for names with no dot, for dotfiles such as `.bashrc`, and for
names with a trailing dot. -/
def suffixOfName (name : String) : String :=
  let segs := strSplitChar '.' name
  if segs.length ≤ 1 then ""
  else
    let last := segs.getLastD ""
    if last = "" then ""
    else if segs.length = 2 ∧ segs.headD "x" = "" then ""
    else "." ++ last

/-- `pathlib.Path.suffix`. -/
def pySuffix (p : PyPath) : String := suffixOfName (p.parts.getLastD "")

/-! ### Base Directory Inferencer (`extract_base_directory`, Step2 lines 65-70) -/
/-- Longest common prefix of two component lists (one fold step of
`os.path.commonpath`). -/
def commonPrefix2 : Parts → Parts → Parts
  | [], _ => []
  | _ :: _, [] => []
  | a :: as, b :: bs => if a = b then a :: commonPrefix2 as bs else []

/-- `os.path.commonpath` over a nonempty list of absolute paths: the longest
common component prefix. -/
def commonpathFn : List Parts → Parts
  | [] => []
  | p :: ps => ps.foldl commonPrefix2 p

/-- Resolve one path string against a working directory, as
`pathlib.Path(p).resolve()` does for already-canonical paths. -/
def resolveStr (cwd : Parts) (s : String) : Parts :=
  let p := pathFromString s
  if p.isAbs then p.parts else cwd ++ p.parts

/-- `extract_base_directory` (directory_audit_Step2.py lines 65-70): drop the
absence markers, resolve the rest, return `None` on an empty collection and
otherwise the common path. -/
def extract_base_directory (cwd : Parts) (paths : List (Option String)) : Option Parts :=
  let absolute_paths := (paths.filterMap id).map (resolveStr cwd)
  if absolute_paths.isEmpty then none
  else some (commonpathFn absolute_paths)

/-! ### Location Reference Resolver (`extract_hyperlinks`, Step2 lines 35-63)
A worksheet cell carries a literal value and, independently, an optional
native embedded link object (openpyxl `cell.hyperlink`); the sheet is a
header row plus data rows. `extract_hyperlinks` scans cell *values* of the
declared target column with the regex `HYPERLINK\("([^"]+)"`, keying results
by the Excel row index (data rows start at 2 after the header). -/
/-- One worksheet cell: literal value plus optional native embedded link. -/
structure Cell where
  value : Option String
  hyperlink : Option String
deriving DecidableEq, Repr

/-- A worksheet: the header row and the data rows (row 2 onwards). -/
structure Sheet where
  header : List String
  rows : List (List Cell)
deriving DecidableEq, Repr

/-- The empty cell (openpyxl pads short rows with valueless cells). -/
def defaultCell : Cell := ⟨none, none⟩

/-- The literal part of the regex `HYPERLINK\("([^"]+)"`. -/
def hyperlinkPattern : List Char := "HYPERLINK(\"".toList

/-- `re.search` for the pattern `HYPERLINK\("([^"]+)"`: find the leftmost
position where the literal `HYPERLINK("` is followed by at least one
non-quote character and then a closing quote; return the captured group. -/
def hyperlinkSearch : List Char → Option (List Char)
  | [] => none
  | c :: t =>
    if hyperlinkPattern.isPrefixOf (c :: t) then
      let rest := (c :: t).drop hyperlinkPattern.length
      let cap := rest.takeWhile (fun x => x ≠ '"')
      if cap ≠ [] ∧ (rest.drop cap.length).head? = some '"' then some cap
      else hyperlinkSearch t
    else hyperlinkSearch t

/-- Per-cell body of the `extract_hyperlinks` loop: a truthy value containing
`HYPERLINK` is searched with the regex; everything else (including a cell
whose native link is set but whose value is plain text) yields `none`. -/
def resolveCell (cell : Cell) : Option String :=
  match cell.value with
  | none => none
  | some v =>
    if v ≠ "" ∧ strContainsStr "HYPERLINK" v then
      match hyperlinkSearch v.toList with
      | some cap => some (String.mk cap)
      | none => none
    else none

/-- `enumerate(sheet.iter_rows(min_row=2), start=2)`: visit the data rows,
keying each result by its Excel row index. -/
def extractRows (idx : Nat) : Nat → List (List Cell) → List (Nat × Option String)
  | _, [] => []
  | start, r :: rest =>
    (start, resolveCell (r.getD idx defaultCell)) :: extractRows idx (start + 1) rest

/-- `extract_hyperlinks` (Step2 lines 35-63): locate the target column in the
header row (an absent column yields the empty mapping) and resolve every data
row's cell in that column. -/
def extract_hyperlinks (sheet : Sheet) (target_column_name : String) :
    List (Nat × Option String) :=
  match sheet.header.indexOf? target_column_name with
  | none => []
  | some idx => extractRows idx 2 sheet.rows

/-- The Builder's embedded location reference
(`f'=HYPERLINK("{path}", "{label}")'`, directory_audit.py lines 119/125/139/145). -/
def hyperFormula (target label : String) : String :=
  "=HYPERLINK(\"" ++ target ++ "\", \"" ++ label ++ "\")"

/-- The sheet used to refute the native-link half of C2: the Path cell carries
the path only as a native embedded link, its displayed value is plain text. -/
def nativeLinkSheet : Sheet :=
  ⟨["Name", "Path"], [[⟨some "x", none⟩, ⟨some "Open Folder", some "/base/docs"⟩]]⟩

/-- The data row exercising the formula-style round trip at a concrete input. -/
def formulaRow : List Cell :=
  [⟨some "x", none⟩, ⟨some (hyperFormula "/base/docs" "Open Folder"), none⟩]

/-- The sheet exercising the formula-style round trip at a concrete input. -/
def formulaSheet : Sheet := ⟨["Name", "Path"], [formulaRow]⟩

/-! ### Filesystem model and the Remediation Executor (Step2 lines 72-196)
A filesystem is the current working directory plus finite lists of file and
directory paths. `rename`/`shutil.move` relocate a path and everything under
it; `mkdir(parents=True)` adds a directory and its ancestors. -/
/-- A snapshot of the filesystem visible to the remediation engine. -/
structure FS where
  cwd : Parts
  files : List Parts
  dirs : List Parts
deriving DecidableEq, Repr

/-- Resolve a `PyPath` against the working directory (what the OS does when a
relative path reaches a syscall). -/
def FS.resolveP (fs : FS) (p : PyPath) : Parts :=
  if p.isAbs then p.parts else fs.cwd ++ p.parts

/-- Existence of an already-resolved path. -/
def FS.existsParts (fs : FS) (q : Parts) : Bool := decide (q ∈ fs.files ∨ q ∈ fs.dirs)

/-- Python `path.exists()`. -/
def FS.existsP (fs : FS) (p : PyPath) : Bool := fs.existsParts (fs.resolveP p)

/-- Python `path.is_file()`. -/
def FS.isFileP (fs : FS) (p : PyPath) : Bool := decide (fs.resolveP p ∈ fs.files)

/-- Python `path.is_dir()` on an already-resolved path. -/
def FS.isDirParts (fs : FS) (q : Parts) : Bool := decide (q ∈ fs.dirs)

/-- Relocate one recorded path: paths at or under `old` move under `new`. -/
def remapPrefix (old new p : Parts) : Parts :=
  if old.isPrefixOf p then new ++ p.drop old.length else p

/-- `os.rename`: relocate a path and everything recorded beneath it. -/
def FS.renameFS (fs : FS) (old new : Parts) : FS :=
  { fs with
    files := fs.files.map (remapPrefix old new)
    dirs := fs.dirs.map (remapPrefix old new) }

/-- `path.mkdir(parents=True, exist_ok=True)`. -/
def FS.mkdirParents (fs : FS) (q : Parts) : FS :=
  { fs with dirs := ((List.range q.length).map (fun i => q.take (i + 1))) ++ fs.dirs }

/-- `shutil.move(src, dst)`: moving into an existing directory targets
`dst/basename(src)` and raises (`false`) if that already exists; otherwise the
move is a rename onto `dst`. -/
def shutilMove (fs : FS) (src dst : Parts) : FS × Bool :=
  if fs.isDirParts dst then
    let real := dst ++ [src.getLastD ""]
    if fs.existsParts real then (fs, false) else (fs.renameFS src real, true)
  else (fs.renameFS src dst, true)

/-- `action_rename` (Step2 lines 72-101). Note the source computes `new_path`
from the *original* `new_name` before the extension-preservation block
appends the suffix to the *returned* `new_name`. -/
def action_rename (fs : FS) (original_path : PyPath) (new_name : String) : FS × String :=
  if !fs.existsP original_path then
    (fs, "Rename Failed - Original file/folder does not exist: " ++ pyPathToString original_path)
  else
    let new_path := pyJoin (pyParent original_path) new_name
    let new_name :=
      if fs.isFileP original_path && !strEndsWith new_name (pySuffix original_path) then
        new_name ++ pySuffix original_path
      else new_name
    if fs.existsP new_path then
      (fs, "Rename Failed - New name already exists: " ++ pyPathToString new_path)
    else
      (fs.renameFS (fs.resolveP original_path) (fs.resolveP new_path), new_name)

/-- Line 108 of Step2: the Executor's target-directory selection for a move —
the `folders_to_create` entry when present, else `BASE_DIRECTORY / name`. -/
def moveTarget (folders_to_create : List (String × Parts)) (BASE_DIRECTORY : Parts)
    (name : String) : Parts :=
  (folders_to_create.lookup name).getD (BASE_DIRECTORY ++ [name])

/-- `action_move` (Step2 lines 103-133). -/
def action_move (fs : FS) (original_path : PyPath) (move_to_folder_name : String)
    (folders_to_create : List (String × Parts)) (BASE_DIRECTORY : Parts) : FS × String :=
  let target_dir := moveTarget folders_to_create BASE_DIRECTORY move_to_folder_name
  if !fs.existsP original_path then
    (fs, "Move Failed - Original file/folder does not exist: " ++ pyPathToString original_path)
  else if !fs.isDirParts target_dir then
    (fs, "Move Failed - Target directory is not a directory: " ++ partsToString target_dir)
  else
    match shutilMove fs (fs.resolveP original_path) target_dir with
    | (fs', true) =>
      (fs', "Moved " ++ pyPathToString original_path ++ " to " ++ partsToString target_dir)
    | (fs', false) => (fs', "Move Error: destination path already exists")

/-- `action_delete` (Step2 lines 135-153): a move into the recycle directory. -/
def action_delete (fs : FS) (original_path : PyPath) (recycle_dir_path : Parts) : FS × String :=
  if fs.existsP original_path then
    match shutilMove fs (fs.resolveP original_path) recycle_dir_path with
    | (fs', true) =>
      (fs', "Moved " ++ pyPathToString original_path ++ " to recycle directory: "
        ++ partsToString recycle_dir_path)
    | (fs', false) => (fs', "Delete Error: destination path already exists")
  else (fs, "Delete Failed - File not found")

/-- One audit-sheet row as the Executor reads it. -/
structure Row where
  name : String
  action : Option String
  renameAs : Option String
  moveTo : Option String
  extractedPath : String
deriving DecidableEq, Repr

/-- One entry of the final action report. -/
structure LogEntry where
  action : String
  path : String
  status : String
deriving DecidableEq, Repr

/-- The body of the per-token loop of `perform_actions` (Step2 lines 174-194),
threading `(filesystem, working path, status log)` through one action token. -/
def doAction (BASE_DIRECTORY recycle_dir_path : Parts)
    (folders_to_create : List (String × Parts)) (new_name move_to : String)
    (st : FS × PyPath × List String) (action : String) : FS × PyPath × List String :=
  let (fs, original_path, status) := st
  if action = "rename" ∧ new_name ≠ "" then
    let (fs', result) := action_rename fs original_path new_name
    let original' :=
      if !strStartsWith result "Failed" then pathFromString result else original_path
    (fs', original', status ++ [result])
  else if action = "move" ∧ move_to ≠ "" then
    if (folders_to_create.lookup move_to).isSome
        || fs.existsParts (BASE_DIRECTORY ++ [move_to]) then
      let (fs', result) := action_move fs original_path move_to folders_to_create BASE_DIRECTORY
      (fs', original_path, status ++ [result])
    else
      (fs, original_path, status ++ ["Failed - Target directory not found for moving: " ++ move_to])
  else if action = "delete" then
    let (fs', result) := action_delete fs original_path recycle_dir_path
    (fs', original_path, status ++ [result])
  else (fs, original_path, status)

/-- One iteration of the row loop of `perform_actions` (Step2 lines 159-198). -/
def processRow (BASE_DIRECTORY recycle_dir_path : Parts)
    (folders_to_create : List (String × Parts)) (fs : FS) (row : Row) : FS × LogEntry :=
  let actions := match row.action with
    | some s => strSplitChar ',' (strToLower s)
    | none => []
  let new_name := match row.renameAs with | some s => strTrim s | none => ""
  let move_to := match row.moveTo with | some s => strTrim s | none => ""
  let original_path := pathFromString row.extractedPath
  if !fs.existsP original_path then
    (fs, ⟨String.intercalate ", " actions, pyPathToString original_path,
      "Original path not found or does not exist"⟩)
  else
    let res := actions.foldl
      (doAction BASE_DIRECTORY recycle_dir_path folders_to_create new_name move_to)
      (fs, original_path, [])
    (res.1, ⟨String.intercalate ", " actions, pyPathToString res.2.1,
      String.intercalate "; " res.2.2⟩)

/-- `perform_actions` over the whole sheet, accumulating the action report. -/
def perform_actions (BASE_DIRECTORY recycle_dir_path : Parts)
    (folders_to_create : List (String × Parts)) (fs : FS) (rows : List Row) :
    FS × List LogEntry :=
  rows.foldl
    (fun acc row =>
      let r := processRow BASE_DIRECTORY recycle_dir_path folders_to_create acc.1 row
      (r.1, acc.2 ++ [r.2]))
    (fs, [])

/-- The Target Folder Reconciler: the `move_to_folders` loop of `main`
(Step2 lines 278-297). `create_choice` is the user's normalized yes/no answer
per missing folder name; an answer that is neither records nothing. -/
def reconcile_target_folders (fs : FS) (BASE_DIRECTORY : Parts)
    (create_choice : String → String) : List String → FS × List (String × Parts)
  | [] => (fs, [])
  | folder_name :: rest =>
    let folder_path := BASE_DIRECTORY ++ [folder_name]
    if fs.existsParts folder_path then
      reconcile_target_folders fs BASE_DIRECTORY create_choice rest
    else if create_choice folder_name = "yes" then
      let r := reconcile_target_folders (fs.mkdirParents folder_path) BASE_DIRECTORY
        create_choice rest
      (r.1, (folder_name, folder_path) :: r.2)
    else if create_choice folder_name = "no" then
      let r := reconcile_target_folders fs BASE_DIRECTORY create_choice rest
      (r.1, (folder_name, BASE_DIRECTORY) :: r.2)
    else reconcile_target_folders fs BASE_DIRECTORY create_choice rest

/-! ### C3 and C4: the rename bugs -/
/-- A filesystem holding the file `/base/draft.docx` under directory `/base`. -/
def renameBugFS : FS := ⟨[], [["base", "draft.docx"]], [["base"]]⟩

/-- The row requesting `rename` then `delete` on `/base/draft.docx`. -/
def c4Row : Row := ⟨"draft.docx", some "rename,delete", some "report", none, "/base/draft.docx"⟩

/-- Filesystem for the successful-rename half of C4. -/
def c4FS : FS := ⟨[], [["base", "draft.docx"]], [["base"], ["recycle"]]⟩

/-- Filesystem and row for the failed-rename half of C4 (destination taken). -/
def c4FailFS : FS := ⟨[], [["base", "draft.docx"], ["base", "report"]], [["base"]]⟩

/-- Row requesting only a rename that will hit the existing `/base/report`. -/
def c4FailRow : Row := ⟨"draft.docx", some "rename", some "report", none, "/base/draft.docx"⟩

/-! ### C8: unrecognized or incomplete action tokens -/
/-- Row whose tokens are a `rename` with no new name and the unknown `fly`. -/
def c8Row : Row := ⟨"a.txt", some "rename,fly", none, none, "/base/a.txt"⟩

/-- Filesystem holding `/base/a.txt`. -/
def c8FS : FS := ⟨[], [["base", "a.txt"]], [["base"]]⟩

/-! ### C5 and C10: the Target Folder Reconciler and the move target -/
/-- Filesystem where the move target `/base/docs` already exists. -/
def c5FS : FS := ⟨[], [["base", "f.txt"]], [["base"], ["base", "docs"]]⟩

/-- Concrete instance for the C10 witness. -/
def c10FS : FS := ⟨[], [["base", "sub", "f.txt"]], [["base"]]⟩

/-! ### Metadata Collector (`list_files`, directory_audit.py lines 67-99)
The directory tree under audit is a rose tree of named directories and file
names; `os.walk(dir, topdown=True)` with the in-place pruning
`dirs[:] = [d for d in dirs if root/d not in exclude_folders]` visits a
directory's files and then its unpruned subdirectories. Paths are already
canonical in the model, so `Path.resolve()` is the identity. -/
/-- A directory: its name, subdirectories and directly contained files. -/
inductive DirTree where
  | node (dname : String) (subdirs : List DirTree) (files : List String)
deriving Repr

/-- The directory's own name. -/
def DirTree.dname : DirTree → String
  | .node n _ _ => n

mutual
/-- `os.walk` from the directory at path `cur`: this directory's file records
first, then the walk of every non-excluded subdirectory. -/
def walkTree (excl : List Parts) (cur : Parts) : DirTree → List Parts
  | .node _ subdirs files =>
    files.map (fun f => cur ++ [f]) ++ walkSubs excl cur subdirs

/-- The pruned descent: a subdirectory whose resolved path is in the
exclusion set is dropped before it is entered. -/
def walkSubs (excl : List Parts) (cur : Parts) : List DirTree → List Parts
  | [] => []
  | t :: ts =>
    (if (cur ++ [t.dname]) ∈ excl then [] else walkTree excl (cur ++ [t.dname]) t)
      ++ walkSubs excl cur ts
end

/-- `list_files(dir_path, exclude_folders)`: the file-path sequence of the
walk (the non-path FileRecord fields come from `os.stat`, outside the model). -/
def list_files (dir_path : Parts) (exclude_folders : List Parts) (t : DirTree) : List Parts :=
  walkTree exclude_folders dir_path t

/-- Structural induction for the nested inductive `DirTree`. -/
def DirTree.recAux {motive : DirTree → Prop}
    (h : ∀ n subdirs files, (∀ t, t ∈ subdirs → motive t) → motive (DirTree.node n subdirs files)) :
    ∀ t, motive t
  | .node n subdirs files => h n subdirs files (fun t _ht => DirTree.recAux h t)
termination_by t => sizeOf t
decreasing_by
  simp_wf
  have := List.sizeOf_lt_of_mem _ht
  omega

/-- The claim's own example tree: `/root/tmp/x.txt` and `/root/keep/y.txt`. -/
def exampleTree : DirTree :=
  .node "root" [.node "tmp" [] ["x.txt"], .node "keep" [] ["y.txt"]] []

/-- A tree with a second, non-excluded directory also named `tmp`, showing
that exclusion matches the full path and not the name. -/
def exampleTreePathMatch : DirTree :=
  .node "root"
    [.node "tmp" [] ["x.txt"], .node "keep" [.node "tmp" [] ["z.txt"]] ["y.txt"]] []

/-! ### Audit Tree Builder (`generate_hierarchical_structure`, lines 101-155)
FileRecords are reduced to their path component lists (the other record
fields are copied opportunistically into rows and play no role in the
claims). The builder sorts records by component tuple, walks each record's
ancestor chain below the root, emits a FolderNode for every ancestor not yet
in the seen-set, then emits the FileNode. -/
/-- The audit row's `Item Type` column. -/
inductive ItemKind where
  | folder
  | file
deriving DecidableEq, Repr

/-- One row of the hierarchical audit sheet, reduced to the fields the
invariants speak about: the kind, the embedded location-reference path and
the indentation depth. -/
structure HierRow where
  kind : ItemKind
  path : Parts
  depth : Nat
deriving DecidableEq, Repr

/-- Insert into a `lexLe`-sorted list. -/
def insertLe (a : Parts) : List Parts → List Parts
  | [] => [a]
  | b :: bs => if lexLe a b then a :: b :: bs else b :: insertLe a bs

/-- `sorted(file_data, key=lambda x: Path(x).parts)`: sort by component
tuple (records with equal paths are identical here, so any sorted
permutation is the library sort's result). -/
def sortFiles : List Parts → List Parts
  | [] => []
  | a :: rest => insertLe a (sortFiles rest)

/-- The inner loop over `parts[:-1]`: walk the ancestor chain, emitting a
FolderNode for each cumulative path not yet seen and extending the seen-set. -/
def emitChain (seen : List Parts) (cum : Parts) (i : Nat) :
    List String → List Parts × List HierRow
  | [] => (seen, [])
  | part :: rest =>
    let cum' := cum ++ [part]
    if cum' ∈ seen then
      emitChain seen cum' (i + 1) rest
    else
      let r := emitChain (cum' :: seen) cum' (i + 1) rest
      (r.1, ⟨.folder, cum', i⟩ :: r.2)

/-- `parts[:-1]` of `file_path.relative_to(dir_path)`. -/
def chainOf (dir_path fp : Parts) : List String := (fp.drop dir_path.length).dropLast

/-- One iteration of the outer loop: the new FolderNodes, then the FileNode. -/
def buildForFile (dir_path : Parts) (seen : List Parts) (fp : Parts) :
    List Parts × List HierRow :=
  let chain := chainOf dir_path fp
  let r := emitChain seen dir_path 0 chain
  (r.1, r.2 ++ [⟨.file, fp, chain.length⟩])

/-- The outer loop over the sorted records, threading the seen-set. -/
def buildAll (dir_path : Parts) (seen : List Parts) : List Parts → List HierRow
  | [] => []
  | fp :: rest =>
    let r := buildForFile dir_path seen fp
    r.2 ++ buildAll dir_path r.1 rest

/-- `generate_hierarchical_structure(dir_path, file_data)`. -/
def generate_hierarchical_structure (dir_path : Parts) (file_data : List Parts) :
    List HierRow :=
  buildAll dir_path [] (sortFiles file_data)

/-- The cumulative ancestor paths of one chain: `cum ++ chain.take k` for
`1 ≤ k ≤ chain.length`. -/
def cums (cum : Parts) : List String → List Parts
  | [] => []
  | part :: rest => (cum ++ [part]) :: cums (cum ++ [part]) rest

/-- Every distinct ancestor folder path of the record collection (with
multiplicity; the builder's invariant is about its set of members). -/
def allCums (dir_path : Parts) (file_data : List Parts) : List Parts :=
  file_data.flatMap (fun fp => cums dir_path (chainOf dir_path fp))

/-- Number of FolderNode rows carrying exactly the path `d`. -/
def folderCount (rows : List HierRow) (d : Parts) : Nat :=
  (rows.filter (fun r => decide (r.kind = ItemKind.folder ∧ r.path = d))).length

/-- `b` may not be a FolderNode lying strictly above `a`: folder rows precede
everything under them exactly when no later row is a proper ancestor folder
of an earlier row. -/
def noLateAncestor (a b : HierRow) : Prop :=
  b.kind = ItemKind.folder → b.path <+: a.path → b.path = a.path

theorem prefConsCons {x : String} {l m : Parts} (h : l <+: m) : x :: l <+: x :: m := by
  obtain ⟨t, rfl⟩ := h
  exact ⟨t, rfl⟩

theorem commonPrefix2_left (a b : Parts) : commonPrefix2 a b <+: a := by
  induction a generalizing b with
  | nil => simp [commonPrefix2]
  | cons x xs ih =>
    cases b with
    | nil => simp [commonPrefix2]
    | cons y ys =>
      simp only [commonPrefix2]
      by_cases h : x = y
      · simpa [h] using prefConsCons (x := x) (ih ys)
      · simp [h]

theorem commonPrefix2_right (a b : Parts) : commonPrefix2 a b <+: b := by
  induction a generalizing b with
  | nil => simp [commonPrefix2]
  | cons x xs ih =>
    cases b with
    | nil => simp [commonPrefix2]
    | cons y ys =>
      simp only [commonPrefix2]
      by_cases h : x = y
      · subst h; simpa using prefConsCons (x := x) (ih ys)
      · simp [h]

theorem commonPrefix2_greatest {e a b : Parts} (ha : e <+: a) (hb : e <+: b) :
    e <+: commonPrefix2 a b := by
  induction e generalizing a b with
  | nil => exact ⟨commonPrefix2 a b, rfl⟩
  | cons x xs ih =>
    obtain ⟨ta, rfl⟩ := ha
    obtain ⟨tb, hbeq⟩ := hb
    cases b with
    | nil => simp at hbeq
    | cons y ys =>
      have hx : y = x := by
        have := congrArg (fun l => List.head? l) hbeq
        simpa using this.symm
      subst hx
      have hys : xs ++ tb = ys := by
        simpa using congrArg List.tail hbeq
      simp only [List.cons_append, commonPrefix2, if_pos rfl]
      exact prefConsCons (ih ⟨ta, rfl⟩ ⟨tb, hys⟩)

theorem foldlCommonPrefixSpec (ps : List Parts) : ∀ acc : Parts,
    (ps.foldl commonPrefix2 acc <+: acc ∧ ∀ q ∈ ps, ps.foldl commonPrefix2 acc <+: q) ∧
      (∀ e : Parts, e <+: acc → (∀ q ∈ ps, e <+: q) → e <+: ps.foldl commonPrefix2 acc) := by
  induction ps with
  | nil =>
    intro acc
    refine ⟨⟨⟨[], by simp⟩, by simp⟩, ?_⟩
    intro e h _
    simpa using h
  | cons r rs ih =>
    intro acc
    have ih' := ih (commonPrefix2 acc r)
    refine ⟨⟨(ih' ).1.1.trans (commonPrefix2_left acc r), ?_⟩, ?_⟩
    · intro q hq
      rcases List.mem_cons.mp hq with h | h
      · cases h
        exact (ih' ).1.1.trans (commonPrefix2_right _ _)
      · exact (ih' ).1.2 q h
    · intro e hacc hall
      exact (ih' ).2 e
        (commonPrefix2_greatest hacc (hall r (by simp)))
        (fun q hq => hall q (by simp [hq]))

theorem commonpathFn_spec (p : Parts) (ps : List Parts) :
    (∀ q ∈ p :: ps, commonpathFn (p :: ps) <+: q) ∧
      (∀ e : Parts, (∀ q ∈ p :: ps, e <+: q) → e <+: commonpathFn (p :: ps)) := by
  have h := foldlCommonPrefixSpec ps p
  constructor
  · intro q hq
    rcases List.mem_cons.mp hq with rfl | hq
    · exact h.1.1
    · exact h.1.2 q hq
  · intro e he
    exact h.2 e (he p (by simp)) (fun q hq => he q (by simp [hq]))

/-- C6: for every non-empty collection of resolved absolute paths (absence
markers filtered out), `extract_base_directory` returns the deepest directory
that is an ancestor (component-prefix-wise) of every path in the collection:
its result is a common prefix of every resolved path and every common prefix
is a prefix of it; in particular over `{/a/b/c/f1, /a/b/d/f2}` it returns
`/a/b`. -/
theorem claim_C6_base_directory_inference (cwd : Parts) (paths : List (Option String))
    (h1 : paths.filterMap id ≠ [])
    (h2 : ∀ s ∈ paths.filterMap id, (pathFromString s).isAbs = true) :
    (∃ d, extract_base_directory cwd paths = some d ∧
        (∀ s ∈ paths.filterMap id, d <+: (pathFromString s).parts) ∧
        ∀ e : Parts, (∀ s ∈ paths.filterMap id, e <+: (pathFromString s).parts) → e <+: d) ∧
      extract_base_directory [] [some "/a/b/c/f1", some "/a/b/d/f2"] = some ["a", "b"] := by
  constructor
  · obtain ⟨s0, rest, hl⟩ : ∃ s0 rest, paths.filterMap id = s0 :: rest := by
      cases h : paths.filterMap id with
      | nil => exact absurd h h1
      | cons a t => exact ⟨a, t, rfl⟩
    have hres : ∀ s ∈ paths.filterMap id, resolveStr cwd s = (pathFromString s).parts := by
      intro s hs
      simp [resolveStr, h2 s hs]
    have hcons : (paths.filterMap id).map (resolveStr cwd)
        = resolveStr cwd s0 :: rest.map (resolveStr cwd) := by
      rw [hl]; rfl
    have hmain := commonpathFn_spec (resolveStr cwd s0) (rest.map (resolveStr cwd))
    refine ⟨commonpathFn (resolveStr cwd s0 :: rest.map (resolveStr cwd)), ?_, ?_, ?_⟩
    · simp only [extract_base_directory]
      rw [hcons]
      simp
    · intro s hs
      have hmem : (pathFromString s).parts ∈ resolveStr cwd s0 :: rest.map (resolveStr cwd) := by
        rw [← hres s hs, ← hcons]
        exact List.mem_map_of_mem _ hs
      exact hmain.1 _ hmem
    · intro e he
      refine hmain.2 e ?_
      intro q hq
      rw [← hcons] at hq
      obtain ⟨s, hs, rfl⟩ := List.mem_map.mp hq
      rw [hres s hs]
      exact he s hs
  · decide

theorem claim_C6_witness :
    ([some "/a/b/c/f1", some "/a/b/d/f2"].filterMap (id : Option String → Option String) ≠ []) ∧
      ((∃ d, extract_base_directory [] [some "/a/b/c/f1", some "/a/b/d/f2"] = some d ∧
          (∀ s ∈ [some "/a/b/c/f1", some "/a/b/d/f2"].filterMap id, d <+: (pathFromString s).parts) ∧
          ∀ e : Parts,
            (∀ s ∈ [some "/a/b/c/f1", some "/a/b/d/f2"].filterMap id, e <+: (pathFromString s).parts) →
              e <+: d) ∧
        extract_base_directory [] [some "/a/b/c/f1", some "/a/b/d/f2"] = some ["a", "b"]) :=
  ⟨by decide, claim_C6_base_directory_inference [] _ (by decide) (by decide)⟩

/-- C7: for the empty collection of resolved paths (every entry an absence
marker, or no entries at all), `extract_base_directory` returns the explicit
absence result `none` rather than crashing. -/
theorem claim_C7_empty_collection (cwd : Parts) (paths : List (Option String))
    (h : ∀ x ∈ paths, x = none) : extract_base_directory cwd paths = none := by
  have hnil : paths.filterMap id = [] := by
    rw [List.filterMap_eq_nil_iff]
    intro a ha
    rw [h a ha]
    rfl
  simp [extract_base_directory, hnil]

theorem claim_C7_witness :
    (∀ x ∈ [(none : Option String)], x = none) ∧
      extract_base_directory ["w"] [(none : Option String)] = none :=
  ⟨by decide, claim_C7_empty_collection ["w"] [none] (by decide)⟩

theorem isPrefixOfAppendSelf (l r : List Char) : l.isPrefixOf (l ++ r) = true := by
  induction l with
  | nil => simp [List.isPrefixOf]
  | cons x xs ih => simp [List.isPrefixOf, ih]

theorem takeWhileAllAppend {p : Char → Bool} {l : List Char} (r : List Char)
    (h : ∀ c ∈ l, p c = true) : (l ++ r).takeWhile p = l ++ r.takeWhile p := by
  induction l with
  | nil => simp
  | cons x xs ih =>
    simp only [List.cons_append, List.takeWhile_cons, h x (by simp)]
    rw [ih (fun c hc => h c (by simp [hc]))]
    simp

theorem hyperlinkSearchFormula (target tail : List Char)
    (hne : target ≠ []) (hq : ∀ c ∈ target, c ≠ '"') :
    hyperlinkSearch (hyperlinkPattern ++ (target ++ '"' :: tail)) = some target := by
  have hcons : hyperlinkPattern ++ (target ++ '"' :: tail)
      = 'H' :: ("YPERLINK(\"".toList ++ (target ++ '"' :: tail)) := rfl
  rw [hcons]
  simp only [hyperlinkSearch]
  rw [← hcons]
  rw [isPrefixOfAppendSelf]
  simp only [if_true]
  have hdrop : (hyperlinkPattern ++ (target ++ '"' :: tail)).drop hyperlinkPattern.length
      = target ++ '"' :: tail := List.drop_left _ _
  rw [hdrop]
  have htake : (target ++ '"' :: tail).takeWhile (fun x => x ≠ '"') = target := by
    rw [takeWhileAllAppend ('"' :: tail) (fun c hc => by simpa using hq c hc)]
    simp [List.takeWhile_cons]
  rw [htake]
  rw [if_pos ⟨hne, by rw [List.drop_left]; rfl⟩]

theorem containsCharsOfStarts {pat s : List Char} (h : pat.isPrefixOf s = true) :
    containsChars pat s = true := by
  cases s with
  | nil => simpa [containsChars] using h
  | cons c t => simp [containsChars, h]

theorem resolveCellFormula (cell : Cell) (target lbl : String)
    (hv : cell.value = some (hyperFormula target lbl))
    (hne : target ≠ "") (hq : ∀ c ∈ target.toList, c ≠ '"') :
    resolveCell cell = some target := by
  have hlist : (hyperFormula target lbl).toList
      = '=' :: (hyperlinkPattern ++ (target.toList ++ '"' :: (", \"" ++ lbl ++ "\")").toList)) := by
    simp only [hyperFormula, String.toList, String.data_append, hyperlinkPattern]
    simp [List.append_assoc]
  have htne : target.toList ≠ [] := by
    intro h
    exact hne (by cases target with | mk d => simpa [String.toList] using congrArg String.mk h)
  have hsearch : hyperlinkSearch (hyperFormula target lbl).toList = some target.toList := by
    rw [hlist]
    simp only [hyperlinkSearch]
    rw [if_neg]
    · exact hyperlinkSearchFormula _ _ htne hq
    · intro hpre
      have : hyperlinkPattern.isPrefixOf
          ('=' :: (hyperlinkPattern ++ (target.toList ++ '"' :: (", \"" ++ lbl ++ "\")").toList)))
          = false := rfl
      rw [this] at hpre
      exact Bool.false_ne_true hpre
  have hvne : hyperFormula target lbl ≠ "" := by
    intro h
    have := congrArg String.toList h
    rw [hlist] at this
    simp [String.toList] at this
  have hcontains : strContainsStr "HYPERLINK" (hyperFormula target lbl) = true := by
    have hpre : ("HYPERLINK".toList).isPrefixOf
        (hyperlinkPattern ++ (target.toList ++ '"' :: (", \"" ++ lbl ++ "\")").toList)) = true := by
      have hsplit : hyperlinkPattern ++ (target.toList ++ '"' :: (", \"" ++ lbl ++ "\")").toList)
          = "HYPERLINK".toList
            ++ ("(\"".toList ++ (target.toList ++ '"' :: (", \"" ++ lbl ++ "\")").toList)) := by
        simp [hyperlinkPattern, String.toList, List.append_assoc]
      rw [hsplit]
      exact isPrefixOfAppendSelf _ _
    simp only [strContainsStr, hlist, containsChars]
    exact Bool.or_eq_true_iff.mpr (Or.inr (containsCharsOfStarts hpre))
  rw [resolveCell, hv]
  simp only [hvne, hcontains, and_true, ne_eq, not_false_iff, if_true, hsearch]
  have hmk : String.mk target.toList = target := rfl
  simp [hmk, hvne]

theorem extractRowsLookup (idx : Nat) (rows : List (List Cell)) : ∀ start i : Nat,
    List.lookup (start + i) (extractRows idx start rows)
      = (rows.get? i).map (fun r => resolveCell (r.getD idx defaultCell)) := by
  induction rows with
  | nil => intro start i; simp [extractRows]
  | cons r rest ih =>
    intro start i
    cases i with
    | zero => simp [extractRows, List.lookup]
    | succ n =>
      simp only [extractRows, List.lookup]
      have hne : ((start + (n + 1) : Nat) == start) = false := by
        simp only [beq_eq_false_iff_ne, ne_eq]
        omega
      rw [hne]
      have : start + (n + 1) = (start + 1) + n := by omega
      rw [this, ih (start + 1) n]
      simp

/-- C2 (amended): for a location reference persisted in the formula-style
storage shape — the Builder's only shape, `=HYPERLINK("path", "label")` with a
nonempty target containing no double quote — resolving the sheet through
`extract_hyperlinks`, keyed by the row's stable Excel row index (data index
plus the header offset 2), yields the original absolute path. The native-link
storage shape does not round-trip (see the counterexample). -/
theorem claim_C2_roundtrip (sheet : Sheet) (idx i : Nat) (rowCells : List Cell)
    (target lbl : String)
    (hcol : sheet.header.indexOf? "Path" = some idx)
    (hrow : sheet.rows.get? i = some rowCells)
    (hcell : (rowCells.getD idx defaultCell).value = some (hyperFormula target lbl))
    (hne : target ≠ "") (hq : ∀ c ∈ target.toList, c ≠ '"') :
    List.lookup (2 + i) (extract_hyperlinks sheet "Path") = some (some target) := by
  rw [extract_hyperlinks, hcol]
  rw [extractRowsLookup idx sheet.rows 2 i, hrow]
  rw [Option.map_some']
  rw [resolveCellFormula _ _ _ hcell hne hq]

/-- C2 counterexample: the claim asserts the round trip holds for the native
embedded-link storage shape as well, but `extract_hyperlinks` never consults
the cell's native link: on a cell whose native link is `/base/docs` and whose
value is the plain label `Open Folder`, the Resolver returns the absence
marker instead of the path. -/
theorem claim_C2_counterexample :
    ((nativeLinkSheet.rows.getD 0 []).getD 1 defaultCell).hyperlink = some "/base/docs" ∧
      List.lookup 2 (extract_hyperlinks nativeLinkSheet "Path") = some none ∧
      List.lookup 2 (extract_hyperlinks nativeLinkSheet "Path") ≠ some (some "/base/docs") := by
  refine ⟨rfl, ?_, ?_⟩ <;> decide

theorem claim_C2_witness :
    (formulaSheet.header.indexOf? "Path" = some 1 ∧
        formulaSheet.rows.get? 0 = some formulaRow ∧
        (formulaRow.getD 1 defaultCell).value = some (hyperFormula "/base/docs" "Open Folder") ∧
        ("/base/docs" : String) ≠ "" ∧ ∀ c ∈ ("/base/docs" : String).toList, c ≠ '"') ∧
      List.lookup (2 + 0) (extract_hyperlinks formulaSheet "Path") = some (some "/base/docs") :=
  ⟨⟨by decide, by decide, by decide, by decide, by decide⟩,
    claim_C2_roundtrip formulaSheet 1 0 formulaRow "/base/docs" "Open Folder"
      (by decide) (by decide) (by decide) (by decide) (by decide)⟩

/-- C3: the claim says renaming file `draft.docx` to `report` yields final
name `report.docx` on disk. The code computes the rename destination from the
user-supplied name *before* appending the preserved extension, so the file
ends up at `/base/report` (no extension) even though the returned name is
`report.docx`: the on-disk result contradicts both the claim and the
source's own header comment ("preserve file extensions when renaming
files"). -/
theorem claim_C3_rename_extension (fs2 : FS) (res : String)
    (h : action_rename renameBugFS ⟨true, ["base", "draft.docx"]⟩ "report" = (fs2, res)) :
    res = "report.docx" ∧ fs2.files = [["base", "report"]] ∧
      ["base", "report.docx"] ∉ fs2.files := by
  have hev : action_rename renameBugFS ⟨true, ["base", "draft.docx"]⟩ "report"
      = (⟨[], [["base", "report"]], [["base"]]⟩, "report.docx") := by decide
  rw [hev] at h
  cases h
  refine ⟨rfl, rfl, by decide⟩

theorem claim_C3_witness :
    (action_rename renameBugFS ⟨true, ["base", "draft.docx"]⟩ "report"
        = (⟨[], [["base", "report"]], [["base"]]⟩, "report.docx")) ∧
      ("report.docx" : String) = "report.docx" ∧
        (⟨[], [["base", "report"]], [["base"]]⟩ : FS).files = [["base", "report"]] ∧
        ["base", "report.docx"] ∉ (⟨[], [["base", "report"]], [["base"]]⟩ : FS).files :=
  ⟨by decide, claim_C3_rename_extension _ _ (by decide)⟩

/-- C4: the claim says a successful rename updates the row's working path to
the renamed entity's actual new location and a failed rename leaves it
unchanged. The code sets the working path to `Path(result)`: after a
successful rename of `/base/draft.docx` the file is at `/base/report` but the
working path becomes the bare relative name `report.docx`, so the following
`delete` in the same row reports `Delete Failed - File not found`; and
because failure messages start with `Rename Failed` (not `Failed`), a failed
rename *also* rewrites the working path — to the error message parsed as a
path. -/
theorem claim_C4_working_path :
    (processRow ["base"] ["recycle"] [] c4FS c4Row).2
        = ⟨"rename, delete", "report.docx", "report.docx; Delete Failed - File not found"⟩ ∧
      (processRow ["base"] ["recycle"] [] c4FS c4Row).1.files = [["base", "report"]] ∧
      (processRow ["base"] ["recycle"] [] c4FailFS c4FailRow).2.path
          = "Rename Failed - New name already exists: /base/report" ∧
      (processRow ["base"] ["recycle"] [] c4FailFS c4FailRow).2.path ≠ "/base/draft.docx" := by
  refine ⟨by decide, by decide, by decide, by decide⟩

/-- C8 counterexample: the claim says an unrecognized token, or a
rename/move token with the required field empty, records a failure status in
the row's status log. On the row with tokens `rename` (empty new name) and
`fly` (unrecognized) the produced status log is empty — nothing was recorded
— and the filesystem is untouched. -/
theorem claim_C8_counterexample :
    (processRow ["base"] ["recycle"] [] c8FS c8Row).2.status = "" ∧
      (processRow ["base"] ["recycle"] [] c8FS c8Row).1 = c8FS := by
  refine ⟨by decide, by decide⟩

/-- C8 (amended): an unrecognized action token, a `rename` token with the
new-name field empty, or a `move` token with the target-folder field empty is
silently skipped: it changes neither the filesystem, nor the row's working
path, nor the status log (no failure status is recorded). -/
theorem claim_C8_silent_skip (BASE recycle : Parts) (map : List (String × Parts))
    (new_name move_to : String) (st : FS × PyPath × List String) (action : String)
    (h1 : ¬(action = "rename" ∧ new_name ≠ ""))
    (h2 : ¬(action = "move" ∧ move_to ≠ ""))
    (h3 : action ≠ "delete") :
    doAction BASE recycle map new_name move_to st action = st := by
  obtain ⟨fs, p, status⟩ := st
  simp [doAction, h1, h2, h3]

theorem claim_C8_witness :
    (¬(("fly" : String) = "rename" ∧ ("" : String) ≠ "") ∧
        ¬(("fly" : String) = "move" ∧ ("" : String) ≠ "") ∧ ("fly" : String) ≠ "delete") ∧
      doAction ["base"] ["r"] [] "" "" (c8FS, ⟨true, ["base", "a.txt"]⟩, []) "fly"
        = (c8FS, ⟨true, ["base", "a.txt"]⟩, []) :=
  ⟨⟨by decide, by decide, by decide⟩,
    claim_C8_silent_skip _ _ _ _ _ _ _ (by decide) (by decide) (by decide)⟩

/-- C5 counterexample: the claim says every move-target name referenced by
any row is recorded in the TargetFolderMap and the Executor never recomputes
a target path. With target name `docs` whose folder already exists under the
base, the Reconciler records nothing (the map is empty), and `action_move`
recomputes `BASE_DIRECTORY / "docs"` itself via its `.get(name, default)`
fallback and moves the file there. -/
theorem claim_C5_counterexample :
    (reconcile_target_folders c5FS ["base"] (fun _ => "yes") ["docs"]).2 = [] ∧
      moveTarget [] ["base"] "docs" = ["base", "docs"] ∧
      (action_move c5FS ⟨true, ["base", "f.txt"]⟩ "docs" [] ["base"]).1.files
        = [["base", "docs", "f.txt"]] := by
  refine ⟨by decide, by decide, by decide⟩

theorem reconKeys (BASE : Parts) (choice : String → String) :
    ∀ (names : List String) (fs : FS) (nm : String) (p : Parts),
      (nm, p) ∈ (reconcile_target_folders fs BASE choice names).2 →
      nm ∈ names ∧ (p = BASE ∨ p = BASE ++ [nm]) := by
  intro names
  induction names with
  | nil =>
    intro fs nm p h
    simp [reconcile_target_folders] at h
  | cons n0 rest ih =>
    intro fs nm p h
    simp only [reconcile_target_folders] at h
    split_ifs at h with h1 h2 h3
    · have := ih fs nm p h
      exact ⟨by simp [this.1], this.2⟩
    · rcases List.mem_cons.mp h with heq | hmem
      · obtain ⟨rfl, rfl⟩ := Prod.mk.injEq .. ▸ heq
        injection heq with e1 e2
        exact ⟨by simp, Or.inr rfl⟩
      · have := ih _ nm p hmem
        exact ⟨by simp [this.1], this.2⟩
    · rcases List.mem_cons.mp h with heq | hmem
      · injection heq with e1 e2
        subst e1; subst e2
        exact ⟨by simp, Or.inl rfl⟩
      · have := ih fs nm p hmem
        exact ⟨by simp [this.1], this.2⟩
    · have := ih fs nm p h
      exact ⟨by simp [this.1], this.2⟩

theorem existsPartsMkdir {fs : FS} {t : Parts} (q : Parts)
    (h : fs.existsParts t = true) : (fs.mkdirParents q).existsParts t = true := by
  simp only [FS.existsParts, FS.mkdirParents, decide_eq_true_eq, List.mem_append] at *
  tauto

theorem reconLookupNone (BASE : Parts) (choice : String → String) (name : String) :
    ∀ (names : List String) (fs : FS),
      fs.existsParts (BASE ++ [name]) = true →
      List.lookup name (reconcile_target_folders fs BASE choice names).2 = none := by
  intro names
  induction names with
  | nil =>
    intro fs _
    simp [reconcile_target_folders]
  | cons n0 rest ih =>
    intro fs hex
    simp only [reconcile_target_folders]
    split_ifs with h1 h2 h3
    · exact ih fs hex
    · have hne : name ≠ n0 := by
        intro he
        rw [← he] at h1
        exact h1 hex
      simp only [List.lookup]
      rw [show ((name == n0) = false) by simpa using hne]
      exact ih _ (existsPartsMkdir _ hex)
    · have hne : name ≠ n0 := by
        intro he
        rw [← he] at h1
        exact h1 hex
      simp only [List.lookup]
      rw [show ((name == n0) = false) by simpa using hne]
      exact ih fs hex
    · exact ih fs hex

/-- C5 (amended): the TargetFolderMap records only names whose folder did not
already exist under the base directory, mapping them to the created folder or
(on decline) to the base directory itself; a referenced name whose folder
already exists is *not* recorded, and for any name absent from the map the
Executor recomputes the target as `BASE_DIRECTORY / name` on its own. -/
theorem claim_C5_map_and_fallback (fs : FS) (BASE : Parts) (names : List String)
    (choice : String → String) (map0 : List (String × Parts)) (name : String)
    (hex : fs.existsParts (BASE ++ [name]) = true)
    (hnone : List.lookup name map0 = none) :
    List.lookup name (reconcile_target_folders fs BASE choice names).2 = none ∧
      (∀ nm p, (nm, p) ∈ (reconcile_target_folders fs BASE choice names).2 →
        nm ∈ names ∧ (p = BASE ∨ p = BASE ++ [nm])) ∧
      moveTarget map0 BASE name = BASE ++ [name] := by
  refine ⟨reconLookupNone BASE choice name names fs hex, reconKeys BASE choice names fs, ?_⟩
  simp [moveTarget, hnone]

theorem isPrefixOfApp {α : Type} [BEq α] [LawfulBEq α] (l r : List α) :
    l.isPrefixOf (l ++ r) = true := by
  induction l with
  | nil => simp [List.isPrefixOf]
  | cons x xs ih => simp [List.isPrefixOf, ih]

theorem isPrefixOfRefl {α : Type} [BEq α] [LawfulBEq α] (l : List α) :
    l.isPrefixOf l = true := by
  have h := isPrefixOfApp l ([] : List α)
  rwa [List.append_nil] at h

theorem remapPrefixSelf (old new : Parts) : remapPrefix old new old = new := by
  simp [remapPrefix, isPrefixOfRefl]

theorem renameFSMemNew {fs : FS} {old : Parts} (new : Parts) (h : old ∈ fs.files) :
    new ∈ (fs.renameFS old new).files := by
  simp only [FS.renameFS, List.mem_map]
  exact ⟨old, h, remapPrefixSelf old new⟩

theorem isPrefixOfToAppend {α : Type} [BEq α] [LawfulBEq α] {l p : List α}
    (h : l.isPrefixOf p = true) : ∃ s, l ++ s = p := by
  induction l generalizing p with
  | nil => exact ⟨p, rfl⟩
  | cons x xs ih =>
    cases p with
    | nil => simp [List.isPrefixOf] at h
    | cons y ys =>
      simp only [List.isPrefixOf, Bool.and_eq_true, beq_iff_eq] at h
      obtain ⟨s, hs⟩ := ih h.2
      exact ⟨s, by simp [h.1, hs]⟩

theorem renameFSNotExists {fs : FS} {old : Parts} (new t : Parts)
    (h1 : fs.existsParts t = false)
    (h2 : ∀ s : Parts, new ++ s ≠ t) :
    (fs.renameFS old new).existsParts t = false := by
  have h1' : ¬(t ∈ fs.files ∨ t ∈ fs.dirs) := by
    simpa [FS.existsParts] using h1
  have key : ∀ q : Parts, remapPrefix old new q = t → q = t := by
    intro q heq
    rw [remapPrefix] at heq
    by_cases hp : old.isPrefixOf q = true
    · rw [if_pos hp] at heq
      exact absurd heq (h2 _)
    · rwa [if_neg hp] at heq
  apply decide_eq_false
  rintro (hmem | hmem)
  · obtain ⟨q, hq, heq⟩ := List.mem_map.mp hmem
    rw [key q heq] at hq
    exact h1' (Or.inl hq)
  · obtain ⟨q, hq, heq⟩ := List.mem_map.mp hmem
    rw [key q heq] at hq
    exact h1' (Or.inr hq)

/-- C10: when the user declines to create a missing move-target folder, the
Reconciler maps that folder name to the base directory itself and creates
nothing, so a subsequent `move` action in a row referencing that name passes
the Executor's gate (the name is in the map), targets the base directory, and
deposits its source directly there — it neither fails nor creates the
folder. -/
theorem claim_C10_decline_defaults_to_base (fs : FS) (BASE : Parts) (name : String)
    (src : PyPath) (choice : String → String) (recycle : Parts)
    (h0 : name ≠ "")
    (h1 : choice name = "no")
    (h2 : fs.existsParts (BASE ++ [name]) = false)
    (h3 : BASE ∈ fs.dirs)
    (h4 : src.parts ∈ fs.files)
    (h5 : src.isAbs = true)
    (h7 : fs.existsParts (BASE ++ [src.parts.getLastD ""]) = false)
    (h8 : src.parts.getLastD "" ≠ name) :
    reconcile_target_folders fs BASE choice [name] = (fs, [(name, BASE)]) ∧
      (BASE ++ [src.parts.getLastD ""])
          ∈ (doAction BASE recycle [(name, BASE)] "" name (fs, src, []) "move").1.files ∧
      (doAction BASE recycle [(name, BASE)] "" name (fs, src, []) "move").1.existsParts
          (BASE ++ [name]) = false ∧
      (doAction BASE recycle [(name, BASE)] "" name (fs, src, []) "move").2.2
        = ["Moved " ++ pyPathToString src ++ " to " ++ partsToString BASE] := by
  have hrecon : reconcile_target_folders fs BASE choice [name] = (fs, [(name, BASE)]) := by
    simp [reconcile_target_folders, h2, h1]
  have hlookup : List.lookup name [(name, BASE)] = some BASE := by simp [List.lookup]
  have htarget : moveTarget [(name, BASE)] BASE name = BASE := by
    simp [moveTarget, hlookup]
  have hresolve : fs.resolveP src = src.parts := by simp [FS.resolveP, h5]
  have hexists : fs.existsP src = true := by
    simp [FS.existsP, hresolve, FS.existsParts, h4]
  have hisdir : fs.isDirParts BASE = true := by simp [FS.isDirParts, h3]
  have hshutil : shutilMove fs src.parts BASE
      = (fs.renameFS src.parts (BASE ++ [src.parts.getLastD ""]), true) := by
    simp only [shutilMove, hisdir, if_true, h7]
    simp
  have hmove : action_move fs src name [(name, BASE)] BASE
      = (fs.renameFS src.parts (BASE ++ [src.parts.getLastD ""]),
          "Moved " ++ pyPathToString src ++ " to " ++ partsToString BASE) := by
    simp [action_move, htarget, hexists, hisdir, hresolve, hshutil]
  have hdo : doAction BASE recycle [(name, BASE)] "" name (fs, src, []) "move"
      = (fs.renameFS src.parts (BASE ++ [src.parts.getLastD ""]), src,
          ["Moved " ++ pyPathToString src ++ " to " ++ partsToString BASE]) := by
    simp [doAction, h0, hlookup, hmove]
  refine ⟨hrecon, ?_, ?_, ?_⟩
  · rw [hdo]
    exact renameFSMemNew _ h4
  · rw [hdo]
    refine renameFSNotExists _ _ h2 ?_
    intro s heq
    have hlen := congrArg List.length heq
    simp at hlen
    subst hlen
    rw [List.append_nil] at heq
    have := List.append_cancel_left heq
    exact h8 (by injection this)
  · rw [hdo]

theorem claim_C10_witness :
    (("docs" : String) ≠ "" ∧ (fun _ : String => "no") "docs" = "no" ∧
        c10FS.existsParts (["base"] ++ ["docs"]) = false ∧
        ["base"] ∈ c10FS.dirs ∧
        (⟨true, ["base", "sub", "f.txt"]⟩ : PyPath).parts ∈ c10FS.files ∧
        (⟨true, ["base", "sub", "f.txt"]⟩ : PyPath).isAbs = true ∧
        c10FS.existsParts
          (["base"] ++ [(⟨true, ["base", "sub", "f.txt"]⟩ : PyPath).parts.getLastD ""]) = false ∧
        (⟨true, ["base", "sub", "f.txt"]⟩ : PyPath).parts.getLastD "" ≠ "docs") ∧
      (reconcile_target_folders c10FS ["base"] (fun _ => "no") ["docs"]
          = (c10FS, [("docs", ["base"])]) ∧
        (["base"] ++ [(⟨true, ["base", "sub", "f.txt"]⟩ : PyPath).parts.getLastD ""])
            ∈ (doAction ["base"] ["r"] [("docs", ["base"])] "" "docs"
                (c10FS, ⟨true, ["base", "sub", "f.txt"]⟩, []) "move").1.files ∧
        (doAction ["base"] ["r"] [("docs", ["base"])] "" "docs"
            (c10FS, ⟨true, ["base", "sub", "f.txt"]⟩, []) "move").1.existsParts
            (["base"] ++ ["docs"]) = false ∧
        (doAction ["base"] ["r"] [("docs", ["base"])] "" "docs"
            (c10FS, ⟨true, ["base", "sub", "f.txt"]⟩, []) "move").2.2
          = ["Moved " ++ pyPathToString ⟨true, ["base", "sub", "f.txt"]⟩
              ++ " to " ++ partsToString ["base"]]) :=
  ⟨⟨by decide, by decide, by decide, by decide, by decide, by decide, by decide, by decide⟩,
    claim_C10_decline_defaults_to_base c10FS ["base"] "docs"
      ⟨true, ["base", "sub", "f.txt"]⟩ (fun _ => "no") ["r"]
      (by decide) (by decide) (by decide) (by decide) (by decide) (by decide)
      (by decide) (by decide)⟩

theorem claim_C5_witness :
    (c5FS.existsParts (["base"] ++ ["docs"]) = true ∧
        List.lookup "docs" ([] : List (String × Parts)) = none) ∧
      (List.lookup "docs"
          (reconcile_target_folders c5FS ["base"] (fun _ => "yes") ["docs"]).2 = none ∧
        (∀ nm p, (nm, p) ∈ (reconcile_target_folders c5FS ["base"] (fun _ => "yes") ["docs"]).2 →
          nm ∈ ["docs"] ∧ (p = ["base"] ∨ p = ["base"] ++ [nm])) ∧
        moveTarget [] ["base"] "docs" = ["base"] ++ ["docs"]) :=
  ⟨⟨by decide, by decide⟩,
    claim_C5_map_and_fallback c5FS ["base"] ["docs"] (fun _ => "yes") [] "docs"
      (by decide) (by decide)⟩

theorem walkSubsMem (excl : List Parts) (cur : Parts) :
    ∀ (ts : List DirTree) (p : Parts), p ∈ walkSubs excl cur ts →
      ∃ t ∈ ts, (cur ++ [t.dname]) ∉ excl ∧ p ∈ walkTree excl (cur ++ [t.dname]) t := by
  intro ts
  induction ts with
  | nil => simp [walkSubs]
  | cons t ts ih =>
    intro p hp
    simp only [walkSubs, List.mem_append] at hp
    rcases hp with hp | hp
    · by_cases hc : (cur ++ [t.dname]) ∈ excl
      · rw [if_pos hc] at hp
        simp at hp
      · rw [if_neg hc] at hp
        exact ⟨t, by simp, hc, hp⟩
    · obtain ⟨t', ht', h1, h2⟩ := ih p hp
      exact ⟨t', by simp [ht'], h1, h2⟩

theorem walkTreeExtends (excl : List Parts) :
    ∀ t : DirTree, ∀ cur p : Parts, p ∈ walkTree excl cur t → ∃ q, q ≠ [] ∧ p = cur ++ q := by
  intro t
  induction t using DirTree.recAux with
  | h n subdirs files ih =>
    intro cur p hp
    simp only [walkTree, List.mem_append] at hp
    rcases hp with hp | hp
    · obtain ⟨f, _, rfl⟩ := List.mem_map.mp hp
      exact ⟨[f], by simp, rfl⟩
    · obtain ⟨t, htm, _, hmem⟩ := walkSubsMem excl cur subdirs p hp
      obtain ⟨q, hqne, rfl⟩ := ih t htm (cur ++ [t.dname]) p hmem
      exact ⟨[t.dname] ++ q, by simp, by simp⟩

theorem prefixEqOfLength {e u v : Parts} (he : e <+: v) (hu : u <+: v)
    (hl : e.length = u.length) : e = u := by
  have htot := List.prefix_or_prefix_of_prefix he hu
  rcases htot with h | h
  · exact h.eq_of_length hl
  · exact (h.eq_of_length hl.symm).symm

theorem walkTreeNoExcluded (excl : List Parts) :
    ∀ t : DirTree, ∀ cur p e : Parts, p ∈ walkTree excl cur t → e ∈ excl →
      cur.length < e.length → ¬ e <+: p.dropLast := by
  intro t
  induction t using DirTree.recAux with
  | h n subdirs files ih =>
    intro cur p e hp he hlen hpre
    simp only [walkTree, List.mem_append] at hp
    rcases hp with hp | hp
    · obtain ⟨f, _, rfl⟩ := List.mem_map.mp hp
      rw [List.dropLast_concat] at hpre
      have := hpre.length_le
      omega
    · obtain ⟨t, ht, hcont, hmem⟩ := walkSubsMem excl cur subdirs p hp
      by_cases hcase : (cur ++ [t.dname]).length < e.length
      · exact ih t ht (cur ++ [t.dname]) p e hmem he hcase hpre
      · obtain ⟨q, hqne, rfl⟩ := walkTreeExtends excl t (cur ++ [t.dname]) p hmem
        have hdrop : ((cur ++ [t.dname]) ++ q).dropLast = (cur ++ [t.dname]) ++ q.dropLast := by
          rw [List.dropLast_append_of_ne_nil]
          exact hqne
        have hcurpre : (cur ++ [t.dname]) <+: ((cur ++ [t.dname]) ++ q).dropLast := by
          rw [hdrop]
          exact ⟨q.dropLast, rfl⟩
        have helen : e.length = (cur ++ [t.dname]).length := by
          simp only [List.length_append, List.length_cons, List.length_nil] at hcase ⊢
          omega
        have heq : e = cur ++ [t.dname] := prefixEqOfLength hpre hcurpre helen
        rw [heq] at he
        exact hcont he

/-- C9: for every root, exclusion set and tree, the Collector's file sequence
contains no file lying under an excluded subtree (for excluded folder paths
deeper than the root, which is the only kind the exclusion prompt can
produce): no excluded path is a prefix of the directory chain of any emitted
file. Exclusions are matched by full resolved path, not by name: excluding
`/root/tmp` from the claim's example yields only `y.txt`, and a differently
located directory also called `tmp` is still walked. -/
theorem claim_C9_exclusion (dir_path : Parts) (excl : List Parts) (t : DirTree)
    (p e : Parts) (hp : p ∈ list_files dir_path excl t) (he : e ∈ excl)
    (hlen : dir_path.length < e.length) :
    (¬ e <+: p.dropLast) ∧
      list_files ["root"] [["root", "tmp"]] exampleTree = [["root", "keep", "y.txt"]] ∧
      list_files ["root"] [["root", "tmp"]] exampleTreePathMatch
        = [["root", "keep", "y.txt"], ["root", "keep", "tmp", "z.txt"]] := by
  refine ⟨walkTreeNoExcluded excl t dir_path p e hp he hlen, by decide, by decide⟩

theorem insertLePerm (a : Parts) (l : List Parts) : List.Perm (insertLe a l) (a :: l) := by
  induction l with
  | nil => exact List.Perm.refl _
  | cons b bs ih =>
    simp only [insertLe]
    by_cases h : lexLe a b = true
    · rw [if_pos h]
    · rw [if_neg h]
      exact (ih.cons b).trans (List.Perm.swap a b bs)

theorem sortFilesPerm (l : List Parts) : List.Perm (sortFiles l) l := by
  induction l with
  | nil => exact List.Perm.refl _
  | cons a rest ih => exact (insertLePerm a (sortFiles rest)).trans (ih.cons a)

theorem cumsLen : ∀ (ch : List String) (cum p : Parts), p ∈ cums cum ch →
    cum.length < p.length := by
  intro ch
  induction ch with
  | nil =>
    intro cum p h
    simp [cums] at h
  | cons part rest ih =>
    intro cum p h
    rcases List.mem_cons.mp h with rfl | h
    · simp
    · have := ih (cum ++ [part]) p h
      simp at this
      omega

theorem cumsPref : ∀ (ch : List String) (cum p : Parts), p ∈ cums cum ch →
    cum <+: p ∧ p <+: cum ++ ch := by
  intro ch
  induction ch with
  | nil =>
    intro cum p h
    simp [cums] at h
  | cons part rest ih =>
    intro cum p h
    rcases List.mem_cons.mp h with rfl | h
    · exact ⟨⟨[part], rfl⟩, ⟨rest, by simp⟩⟩
    · obtain ⟨h1, h2⟩ := ih (cum ++ [part]) p h
      refine ⟨List.IsPrefix.trans ⟨[part], rfl⟩ h1, ?_⟩
      have hassoc : (cum ++ [part]) ++ rest = cum ++ (part :: rest) := by simp
      rwa [hassoc] at h2

theorem cumsMemOf : ∀ (ch : List String) (cum p : Parts), cum <+: p → p <+: cum ++ ch →
    cum.length < p.length → p ∈ cums cum ch := by
  intro ch
  induction ch with
  | nil =>
    intro cum p h1 h2 h3
    have := h2.length_le
    simp at this
    omega
  | cons part rest ih =>
    intro cum p h1 h2 h3
    obtain ⟨q, rfl⟩ := h1
    have hqne : q ≠ [] := by
      intro h
      subst h
      simp at h3
    obtain ⟨t, ht⟩ := h2
    have hqt : q ++ t = part :: rest := by
      rw [List.append_assoc] at ht
      exact List.append_cancel_left ht
    cases q with
    | nil => exact absurd rfl hqne
    | cons x q' =>
      have hx : x = part := by
        have := congrArg List.head? hqt
        simpa using this
      subst hx
      cases q' with
      | nil => simp [cums]
      | cons y q'' =>
        refine List.mem_cons.mpr (Or.inr ?_)
        have h2' : cum ++ x :: y :: q'' <+: (cum ++ [x]) ++ rest := by
          refine ⟨t, ?_⟩
          have htail : (y :: q'') ++ t = rest := by
            have := congrArg List.tail hqt
            simpa using this
          simp [← htail]
        have h1' : (cum ++ [x]) <+: cum ++ x :: y :: q'' := ⟨y :: q'', by simp⟩
        have h3' : (cum ++ [x]).length < (cum ++ x :: y :: q'').length := by
          simp
        exact ih (cum ++ [x]) (cum ++ x :: y :: q'') h1' h2' h3'

theorem emitChainSeen : ∀ (ch : List String) (seen : List Parts) (cum : Parts) (i : Nat)
    (d : Parts), d ∈ (emitChain seen cum i ch).1 ↔ d ∈ cums cum ch ∨ d ∈ seen := by
  intro ch
  induction ch with
  | nil =>
    intro seen cum i d
    simp [emitChain, cums]
  | cons part rest ih =>
    intro seen cum i d
    simp only [emitChain, cums]
    by_cases hc : (cum ++ [part]) ∈ seen
    · rw [if_pos hc]
      rw [ih]
      constructor
      · rintro (h | h)
        · exact Or.inl (List.mem_cons.mpr (Or.inr h))
        · exact Or.inr h
      · rintro (h | h)
        · rcases List.mem_cons.mp h with rfl | h
          · exact Or.inr hc
          · exact Or.inl h
        · exact Or.inr h
    · rw [if_neg hc]
      show d ∈ (emitChain ((cum ++ [part]) :: seen) (cum ++ [part]) (i + 1) rest).1 ↔ _
      rw [ih]
      constructor
      · rintro (h | h)
        · exact Or.inl (List.mem_cons.mpr (Or.inr h))
        · rcases List.mem_cons.mp h with rfl | h
          · exact Or.inl (List.mem_cons.mpr (Or.inl rfl))
          · exact Or.inr h
      · rintro (h | h)
        · rcases List.mem_cons.mp h with rfl | h
          · exact Or.inr (List.mem_cons.mpr (Or.inl rfl))
          · exact Or.inl h
        · exact Or.inr (List.mem_cons.mpr (Or.inr h))

theorem emitChainRows : ∀ (ch : List String) (seen : List Parts) (cum : Parts) (i : Nat)
    (r : HierRow), r ∈ (emitChain seen cum i ch).2 →
    r.kind = ItemKind.folder ∧ r.path ∈ cums cum ch ∧ r.path ∉ seen := by
  intro ch
  induction ch with
  | nil =>
    intro seen cum i r h
    simp [emitChain] at h
  | cons part rest ih =>
    intro seen cum i r h
    simp only [emitChain] at h
    by_cases hc : (cum ++ [part]) ∈ seen
    · rw [if_pos hc] at h
      obtain ⟨h1, h2, h3⟩ := ih seen (cum ++ [part]) (i + 1) r h
      exact ⟨h1, List.mem_cons.mpr (Or.inr h2), h3⟩
    · rw [if_neg hc] at h
      rcases List.mem_cons.mp h with rfl | h
      · exact ⟨rfl, List.mem_cons.mpr (Or.inl rfl), hc⟩
      · obtain ⟨h1, h2, h3⟩ := ih ((cum ++ [part]) :: seen) (cum ++ [part]) (i + 1) r h
        refine ⟨h1, List.mem_cons.mpr (Or.inr h2), fun hmem => h3 ?_⟩
        exact List.mem_cons.mpr (Or.inr hmem)

theorem emitChainLens : ∀ (ch : List String) (seen : List Parts) (cum : Parts) (i : Nat),
    List.Pairwise (fun a b : HierRow => a.path.length < b.path.length)
      (emitChain seen cum i ch).2 := by
  intro ch
  induction ch with
  | nil =>
    intro seen cum i
    simp [emitChain]
  | cons part rest ih =>
    intro seen cum i
    simp only [emitChain]
    by_cases hc : (cum ++ [part]) ∈ seen
    · rw [if_pos hc]
      exact ih seen (cum ++ [part]) (i + 1)
    · rw [if_neg hc]
      show List.Pairwise _ (⟨ItemKind.folder, cum ++ [part], i⟩ ::
        (emitChain ((cum ++ [part]) :: seen) (cum ++ [part]) (i + 1) rest).2)
      rw [List.pairwise_cons]
      refine ⟨?_, ih ((cum ++ [part]) :: seen) (cum ++ [part]) (i + 1)⟩
      intro b hb
      have := (emitChainRows rest _ _ _ b hb).2.1
      have hlen := cumsLen rest (cum ++ [part]) b.path this
      simpa using hlen

theorem folderCountAppend (l m : List HierRow) (d : Parts) :
    folderCount (l ++ m) d = folderCount l d + folderCount m d := by
  simp [folderCount, List.filter_append]

theorem folderCountCons (r : HierRow) (rows : List HierRow) (d : Parts) :
    folderCount (r :: rows) d
      = (if r.kind = ItemKind.folder ∧ r.path = d then 1 else 0) + folderCount rows d := by
  simp only [folderCount, List.filter_cons]
  by_cases h : r.kind = ItemKind.folder ∧ r.path = d
  · rw [if_pos h]
    simp [h]
    omega
  · rw [if_neg h]
    simp [h]

theorem emitChainCount : ∀ (ch : List String) (seen : List Parts) (cum : Parts) (i : Nat)
    (d : Parts), folderCount (emitChain seen cum i ch).2 d
      = if d ∈ cums cum ch ∧ d ∉ seen then 1 else 0 := by
  intro ch
  induction ch with
  | nil =>
    intro seen cum i d
    simp [emitChain, cums, folderCount]
  | cons part rest ih =>
    intro seen cum i d
    simp only [emitChain, cums]
    by_cases hc : (cum ++ [part]) ∈ seen
    · rw [if_pos hc]
      rw [ih seen (cum ++ [part]) (i + 1) d]
      by_cases hd : d = cum ++ [part]
      · subst hd
        rw [if_neg (fun h => h.2 hc), if_neg (fun h => h.2 hc)]
      · refine if_congr ?_ rfl rfl
        simp only [List.mem_cons]
        tauto
    · rw [if_neg hc]
      show folderCount (⟨ItemKind.folder, cum ++ [part], i⟩ ::
          (emitChain ((cum ++ [part]) :: seen) (cum ++ [part]) (i + 1) rest).2) d = _
      rw [folderCountCons, ih ((cum ++ [part]) :: seen) (cum ++ [part]) (i + 1) d]
      by_cases hd : d = cum ++ [part]
      · subst hd
        rw [if_pos (⟨rfl, rfl⟩ : ItemKind.folder = ItemKind.folder ∧ _ = _),
          if_neg (fun h => h.2 (List.mem_cons.mpr (Or.inl rfl))),
          if_pos ⟨List.mem_cons.mpr (Or.inl rfl), hc⟩]
      · rw [if_neg (fun h => hd h.2.symm), Nat.zero_add]
        refine if_congr ?_ rfl rfl
        simp only [List.mem_cons]
        tauto

theorem buildAllCount (dir_path : Parts) : ∀ (F : List Parts) (seen : List Parts) (d : Parts),
    folderCount (buildAll dir_path seen F) d
      = if d ∈ allCums dir_path F ∧ d ∉ seen then 1 else 0 := by
  intro F
  induction F with
  | nil =>
    intro seen d
    simp [buildAll, allCums, folderCount]
  | cons fp rest ih =>
    intro seen d
    simp only [buildAll, buildForFile]
    rw [folderCountAppend, folderCountAppend, folderCountCons]
    rw [if_neg (by rintro ⟨h, _⟩; cases h)]
    rw [emitChainCount, ih]
    rw [show folderCount [] d = 0 from rfl]
    have hseen : ∀ x : Parts, x ∈ (emitChain seen dir_path 0 (chainOf dir_path fp)).1
        ↔ x ∈ cums dir_path (chainOf dir_path fp) ∨ x ∈ seen :=
      fun x => emitChainSeen (chainOf dir_path fp) seen dir_path 0 x
    have hall : d ∈ allCums dir_path (fp :: rest)
        ↔ d ∈ cums dir_path (chainOf dir_path fp) ∨ d ∈ allCums dir_path rest := by
      simp [allCums]
    by_cases h1 : d ∈ cums dir_path (chainOf dir_path fp)
    · by_cases h2 : d ∈ seen
      · rw [if_neg (fun h => h.2 h2), if_neg (fun h => h.2 ((hseen d).mpr (Or.inr h2))),
          if_neg (fun h => h.2 h2)]
      · rw [if_pos ⟨h1, h2⟩, if_neg (fun h => h.2 ((hseen d).mpr (Or.inl h1))),
          if_pos ⟨hall.mpr (Or.inl h1), h2⟩]
    · by_cases h2 : d ∈ seen
      · rw [if_neg (fun h => h.2 h2), if_neg (fun h => h.2 ((hseen d).mpr (Or.inr h2))),
          if_neg (fun h => h.2 h2)]
      · rw [if_neg (fun h => h1 h.1)]
        have hseenD : d ∉ (emitChain seen dir_path 0 (chainOf dir_path fp)).1 := by
          intro h
          rcases (hseen d).mp h with h | h
          · exact h1 h
          · exact h2 h
        by_cases h3 : d ∈ allCums dir_path rest
        · rw [if_pos ⟨h3, hseenD⟩, if_pos ⟨hall.mpr (Or.inr h3), h2⟩]
        · rw [if_neg (fun h => h3 h.1),
            if_neg (fun h => (hall.mp h.1).elim (fun hx => h1 hx) (fun hx => h3 hx))]

theorem buildAllFolderRows (dir_path : Parts) : ∀ (F : List Parts) (seen : List Parts)
    (r : HierRow), r ∈ buildAll dir_path seen F → r.kind = ItemKind.folder →
    r.path ∉ seen ∧ ∃ fp ∈ F, r.path ∈ cums dir_path (chainOf dir_path fp) := by
  intro F
  induction F with
  | nil =>
    intro seen r h _
    simp [buildAll] at h
  | cons fp rest ih =>
    intro seen r h hk
    simp only [buildAll, buildForFile, List.append_assoc, List.mem_append,
      List.mem_singleton] at h
    rcases h with h | h | h
    · obtain ⟨_, h2, h3⟩ := emitChainRows (chainOf dir_path fp) seen dir_path 0 r h
      exact ⟨h3, fp, by simp, h2⟩
    · subst h
      cases hk
    · obtain ⟨h1, fp', hfp', h2⟩ := ih _ r h hk
      refine ⟨fun hmem => h1 ?_, fp', by simp [hfp'], h2⟩
      exact (emitChainSeen (chainOf dir_path fp) seen dir_path 0 r.path).mpr (Or.inr hmem)

theorem prefixDropLastOfLt {p l : Parts} (h : p <+: l) (hl : p.length < l.length) :
    p <+: l.dropLast := by
  obtain ⟨t, rfl⟩ := h
  have htne : t ≠ [] := by
    intro heq
    subst heq
    simp at hl
  rw [List.dropLast_append_of_ne_nil _ htne]
  exact ⟨t.dropLast, rfl⟩

theorem chainOfSpec {dir_path fp : Parts} (h1 : dir_path <+: fp)
    (h2 : dir_path.length < fp.length) :
    dir_path ++ chainOf dir_path fp = fp.dropLast := by
  obtain ⟨rel, rfl⟩ := h1
  have hrne : rel ≠ [] := by
    intro heq
    subst heq
    simp at h2
  rw [chainOf, List.drop_left, List.dropLast_append_of_ne_nil _ hrne]

theorem buildForFilePairwise (dir_path seen fp : _) :
    List.Pairwise noLateAncestor (buildForFile dir_path seen fp).2 := by
  simp only [buildForFile]
  rw [List.pairwise_append]
  refine ⟨?_, by simp, ?_⟩
  · refine (emitChainLens (chainOf dir_path fp) seen dir_path 0).imp ?_
    intro a b hab
    intro _ hpre
    have := hpre.length_le
    omega
  · intro a _ b hb
    simp only [List.mem_singleton] at hb
    subst hb
    intro hk
    cases hk

theorem buildAllPairwise (dir_path : Parts) : ∀ (F : List Parts) (seen : List Parts),
    (∀ fp ∈ F, dir_path <+: fp ∧ dir_path.length < fp.length) →
    List.Pairwise noLateAncestor (buildAll dir_path seen F) := by
  intro F
  induction F with
  | nil =>
    intro seen _
    simp [buildAll]
  | cons fp rest ih =>
    intro seen hF
    have hfp := hF fp (by simp)
    simp only [buildAll]
    rw [List.pairwise_append]
    refine ⟨buildForFilePairwise dir_path seen fp,
      ih _ (fun g hg => hF g (by simp [hg])), ?_⟩
    intro a ha b hb
    intro hbk hbpre
    by_cases heq : b.path = a.path
    · exact heq
    exfalso
    have hbfacts := buildAllFolderRows dir_path rest _ b hb hbk
    obtain ⟨hbseen, fp', _, hbcums⟩ := hbfacts
    have hbdir := (cumsPref (chainOf dir_path fp') dir_path b.path hbcums).1
    have hbdirlen := cumsLen (chainOf dir_path fp') dir_path b.path hbcums
    have hafp : a.path <+: fp := by
      simp only [buildForFile, List.mem_append, List.mem_singleton] at ha
      rcases ha with ha | ha
      · have h2 := (emitChainRows (chainOf dir_path fp) seen dir_path 0 a ha).2.1
        have := (cumsPref (chainOf dir_path fp) dir_path a.path h2).2
        rw [chainOfSpec hfp.1 hfp.2] at this
        exact this.trans (List.dropLast_prefix fp)
      · subst ha
        exact List.prefix_rfl
    have hblt : b.path.length < a.path.length := by
      have hle := hbpre.length_le
      rcases Nat.lt_or_ge b.path.length a.path.length with h | h
      · exact h
      · exact absurd (hbpre.eq_of_length (by omega)) heq
    have hbfp : b.path <+: fp.dropLast := by
      have h1 : b.path <+: fp := hbpre.trans hafp
      have h2 : b.path.length < fp.length := by
        have := hafp.length_le
        omega
      exact prefixDropLastOfLt h1 h2
    have hbmem : b.path ∈ cums dir_path (chainOf dir_path fp) := by
      apply cumsMemOf (chainOf dir_path fp) dir_path b.path hbdir _ hbdirlen
      rw [chainOfSpec hfp.1 hfp.2]
      exact hbfp
    exact hbseen ((emitChainSeen (chainOf dir_path fp) seen dir_path 0 b.path).mpr
      (Or.inl hbmem))

theorem allCumsSortIff (dir_path : Parts) (l : List Parts) (d : Parts) :
    d ∈ allCums dir_path (sortFiles l) ↔ d ∈ allCums dir_path l := by
  simp only [allCums, List.mem_flatMap]
  constructor
  · rintro ⟨fp, hfp, hd⟩
    exact ⟨fp, (sortFilesPerm l).subset hfp, hd⟩
  · rintro ⟨fp, hfp, hd⟩
    exact ⟨fp, (sortFilesPerm l).mem_iff.mpr hfp, hd⟩

/-- C1: for every root directory and every collection of file records lying
properly under it, the audit sequence has exactly one FolderNode per distinct
ancestor folder path — `folderCount` is one on members of `allCums` (the
ancestor paths strictly between the root and a record) and zero elsewhere, no
matter how many records share the ancestor — and every FolderNode precedes
every entry whose path lies strictly under it (no later row is a proper
ancestor FolderNode of an earlier row). -/
theorem claim_C1_audit_sequence (dir_path : Parts) (file_data : List Parts)
    (h : ∀ fp ∈ file_data, dir_path <+: fp ∧ dir_path.length < fp.length) :
    (∀ d : Parts, folderCount (generate_hierarchical_structure dir_path file_data) d
        = if d ∈ allCums dir_path file_data then 1 else 0) ∧
      List.Pairwise noLateAncestor (generate_hierarchical_structure dir_path file_data) := by
  constructor
  · intro d
    rw [generate_hierarchical_structure, buildAllCount]
    simp [allCumsSortIff]
  · exact buildAllPairwise dir_path (sortFiles file_data) []
      (fun fp hfp => h fp ((sortFilesPerm file_data).subset hfp))

theorem claim_C1_witness :
    (∀ fp ∈ [["root", "a", "sub", "f1"], ["root", "b", "g"], ["root", "a", "f2"]],
        (["root"] : Parts) <+: fp ∧ (["root"] : Parts).length < fp.length) ∧
      ((∀ d : Parts, folderCount (generate_hierarchical_structure ["root"]
            [["root", "a", "sub", "f1"], ["root", "b", "g"], ["root", "a", "f2"]]) d
          = if d ∈ allCums ["root"]
              [["root", "a", "sub", "f1"], ["root", "b", "g"], ["root", "a", "f2"]]
            then 1 else 0) ∧
        List.Pairwise noLateAncestor (generate_hierarchical_structure ["root"]
          [["root", "a", "sub", "f1"], ["root", "b", "g"], ["root", "a", "f2"]])) ∧
      generate_hierarchical_structure ["root"]
          [["root", "a", "sub", "f1"], ["root", "b", "g"], ["root", "a", "f2"]]
        = [⟨ItemKind.folder, ["root", "a"], 0⟩, ⟨ItemKind.file, ["root", "a", "f2"], 1⟩,
            ⟨ItemKind.folder, ["root", "a", "sub"], 1⟩,
            ⟨ItemKind.file, ["root", "a", "sub", "f1"], 2⟩,
            ⟨ItemKind.folder, ["root", "b"], 0⟩, ⟨ItemKind.file, ["root", "b", "g"], 1⟩] :=
  ⟨by decide,
    claim_C1_audit_sequence ["root"]
      [["root", "a", "sub", "f1"], ["root", "b", "g"], ["root", "a", "f2"]] (by decide),
    by decide⟩

theorem claim_C9_witness :
    ((["root", "keep", "y.txt"] : Parts) ∈
        list_files ["root"] [["root", "tmp"]] exampleTree ∧
      (["root", "tmp"] : Parts) ∈ [(["root", "tmp"] : Parts)] ∧
      (["root"] : Parts).length < (["root", "tmp"] : Parts).length) ∧
      ((¬ (["root", "tmp"] : Parts) <+: (["root", "keep", "y.txt"] : Parts).dropLast) ∧
        list_files ["root"] [["root", "tmp"]] exampleTree = [["root", "keep", "y.txt"]] ∧
        list_files ["root"] [["root", "tmp"]] exampleTreePathMatch
          = [["root", "keep", "y.txt"], ["root", "keep", "tmp", "z.txt"]]) :=
  ⟨⟨by decide, by decide, by decide⟩,
    claim_C9_exclusion ["root"] [["root", "tmp"]] exampleTree
      ["root", "keep", "y.txt"] ["root", "tmp"] (by decide) (by decide) (by decide)⟩

end DirectoryAudit
